import Mathlib

set_option maxRecDepth 40000

/-!
Verification of the `llm-tokenizer` repository (minbpe-style byte-pair
encoding).  The Python sources `src/minbpe/basic.py` (`BasicTokenizer`, the
"Byte Tokenizer") and `src/minbpe/regex.py` (`RegexTokenizer`, the "Chunked
Tokenizer") are shallowly embedded below.

Modelling conventions:
* Python `str` values are lists of Unicode scalar values (`List Nat`);
  `bytes` values are lists of byte values (`List Nat`, each `< 256`).
* Python `dict` / `collections.OrderedDict` (CPython ≥ 3.7 preserves
  insertion order; updating an existing key keeps its position) is embedded
  as an insertion-ordered association list with `Dict.get` / `Dict.set`.
* Python exceptions become an explicit error type `TokErr`; fallible
  operations return `Except TokErr α`.
-/

/-- Python exceptions raised by the tokenizer code.
`notTrained` stands for `Exception('Tokenizer has not been trained, ...')`;
`unknownToken t` for the `KeyError` raised by `self._vocab[token]` in
`decode`; `maxOfEmpty` for the `ValueError` raised by `max()` on an empty
pair-count dict during training; `trainKeyError` for the (unreachable)
`KeyError` that `vocab[top_pair[0]]` would raise in `_byte_pair_encode`.
The code never raises any `InvalidConfiguration`-style error. -/
inductive TokErr where
  | notTrained : TokErr
  | unknownToken : Nat → TokErr
  | maxOfEmpty : TokErr
  | trainKeyError : TokErr
  deriving DecidableEq, Repr

namespace Dict

/-- Python dict lookup `d[k]` / `d.get(k)`: first (and only) binding of
the key in the insertion-ordered association list. -/
def get {κ ν : Type} [DecidableEq κ] : List (κ × ν) → κ → Option ν
  | [], _ => none
  | e :: rest, k => if e.1 = k then some e.2 else get rest k

/-- Python dict assignment `d[k] = v`: update the key in place if it is
present (keeping its position), otherwise append it at the end. -/
def set {κ ν : Type} [DecidableEq κ] : List (κ × ν) → κ → ν → List (κ × ν)
  | [], k, v => [(k, v)]
  | e :: rest, k, v => if e.1 = k then (k, v) :: rest else e :: set rest k v

/-- The keys of a dict, in insertion order. -/
def keys {κ ν : Type} (d : List (κ × ν)) : List κ := d.map Prod.fst

end Dict

/-- The list of adjacent pairs of a token list: `zip(tokens, tokens[1:])`. -/
def pairsOf (l : List Nat) : List (Nat × Nat) := l.zip l.tail

/-- One update step of `_count_pairs`:
`counts[pair] = counts.get(pair, 0) + 1`. -/
def pcIncr (counts : List ((Nat × Nat) × Nat)) (pair : Nat × Nat) :
    List ((Nat × Nat) × Nat) :=
  Dict.set counts pair (((Dict.get counts pair).getD 0) + 1)

/-- `BasicTokenizer._count_pairs`: counts each adjacent pair of `tokens`,
iterating over `zip(tokens, tokens[1:])` in order. -/
def count_pairs (tokens : List Nat) : List ((Nat × Nat) × Nat) :=
  (pairsOf tokens).foldl pcIncr []

/-- `RegexTokenizer._count_pairs`: the additive variant that accumulates
into a caller-supplied running `pair_counts` dict. -/
def count_pairs_into (tokens : List Nat) (pair_counts : List ((Nat × Nat) × Nat)) :
    List ((Nat × Nat) × Nat) :=
  (pairsOf tokens).foldl pcIncr pair_counts

/-- Tail of Python `max(pair_counts, key=pair_counts.get)`: keep the first
key attaining the maximal count (Python `max` replaces the current best
only on a strictly greater key value). -/
def maxPairGo (best : (Nat × Nat) × Nat) : List ((Nat × Nat) × Nat) → Nat × Nat
  | [] => best.1
  | e :: rest => if e.2 > best.2 then maxPairGo e rest else maxPairGo best rest

/-- Python `max(pair_counts, key=pair_counts.get)`: `none` models the
`ValueError` on an empty dict. -/
def maxPair : List ((Nat × Nat) × Nat) → Option (Nat × Nat)
  | [] => none
  | e :: rest => some (maxPairGo e rest)

/-- `BasicTokenizer._merge` / `RegexTokenizer._merge` (their bodies are
identical): the while loop over index `i`, replacing each left-to-right
non-overlapping occurrence of `pair_to_replace` by `replacement_token`
(on a match `i` advances by 2, otherwise by 1), is embedded as structural
recursion on the token list. -/
def pymerge : List Nat → (Nat × Nat) → Nat → List Nat
  | [], _, _ => []
  | [t], _, _ => [t]
  | t0 :: t1 :: rest, pair_to_replace, replacement_token =>
    if pair_to_replace.1 = t0 ∧ pair_to_replace.2 = t1 then
      replacement_token :: pymerge rest pair_to_replace replacement_token
    else
      t0 :: pymerge (t1 :: rest) pair_to_replace replacement_token

/-- `vocab = {idx: bytes([idx]) for idx in range(256)}`. -/
def vocab0 : List (Nat × List Nat) := (List.range 256).map (fun i => (i, [i]))

/-- Replaying the merge table in stored order:
`for pair, replacement_token in merges.items(): tokens = merge(tokens, ...)`. -/
def replayMerges (merges : List ((Nat × Nat) × Nat)) (tokens : List Nat) :
    List Nat :=
  merges.foldl (fun t pr => pymerge t pr.1 pr.2) tokens

/-- `[self._vocab[token] for token in encoded_tokens]`: look every token up
in the vocabulary, failing with the `KeyError` (`unknownToken`) of the first
missing id. -/
def vocabBytes (vocab : List (Nat × List Nat)) : List Nat →
    Except TokErr (List (List Nat))
  | [] => .ok []
  | t :: rest =>
    match Dict.get vocab t with
    | some bs =>
      match vocabBytes vocab rest with
      | .ok bss => .ok (bs :: bss)
      | .error e => .error e
    | none => .error (.unknownToken t)

/-- `b''.join(...)`. -/
def concatAll (l : List (List Nat)) : List Nat := l.foldr (· ++ ·) []

/-- UTF-8 encoding of one Unicode scalar value (Python
`str.encode('utf-8')`, per character). -/
def utf8EncodeChar (c : Nat) : List Nat :=
  if c < 0x80 then [c]
  else if c < 0x800 then [0xC0 + c / 64, 0x80 + c % 64]
  else if c < 0x10000 then
    [0xE0 + c / 4096, 0x80 + (c / 64) % 64, 0x80 + c % 64]
  else
    [0xF0 + c / 0x40000, 0x80 + (c / 4096) % 64, 0x80 + (c / 64) % 64,
     0x80 + c % 64]

/-- `text.encode('utf-8')` over a whole string. -/
def utf8Encode (s : List Nat) : List Nat :=
  s.foldr (fun c acc => utf8EncodeChar c ++ acc) []

/-- A Unicode scalar value (what a Python `str` character can be). -/
def ValidScalar (c : Nat) : Prop := c < 0xD800 ∨ (0xE000 ≤ c ∧ c < 0x110000)

instance (c : Nat) : Decidable (ValidScalar c) := by
  unfold ValidScalar; infer_instance

/-- Every character of the string is a Unicode scalar value (always true of
a Python `str`). -/
def ValidText (s : List Nat) : Prop := ∀ c ∈ s, ValidScalar c

instance (s : List Nat) : Decidable (ValidText s) := by
  unfold ValidText; infer_instance

/-- Is a byte a UTF-8 continuation byte? -/
def isCont (b : Nat) : Bool := 0x80 ≤ b ∧ b < 0xC0

/-- Modelled from the spec: `bytes.decode('utf-8', errors='replace')`, the
Python standard-library lenient UTF-8 decoder (external library code, not in
the repository).  It never fails: bytes that do not start a valid UTF-8
sequence decode to the replacement character U+FFFD.  On valid UTF-8 input
it agrees exactly with strict UTF-8 decoding, which is the only regime any
theorem below depends on. -/
def utf8DecodeR : List Nat → List Nat
  | [] => []
  | [b0] => if b0 < 0x80 then [b0] else [0xFFFD]
  | [b0, b1] =>
    if b0 < 0x80 then b0 :: utf8DecodeR [b1]
    else if 0xC2 ≤ b0 ∧ b0 < 0xE0 ∧ isCont b1 then
      [(b0 - 0xC0) * 64 + (b1 - 0x80)]
    else 0xFFFD :: utf8DecodeR [b1]
  | [b0, b1, b2] =>
    if b0 < 0x80 then b0 :: utf8DecodeR [b1, b2]
    else if 0xC2 ≤ b0 ∧ b0 < 0xE0 ∧ isCont b1 then
      ((b0 - 0xC0) * 64 + (b1 - 0x80)) :: utf8DecodeR [b2]
    else if 0xE0 ≤ b0 ∧ b0 < 0xF0 ∧ isCont b1 ∧ isCont b2 then
      [((b0 - 0xE0) * 64 + (b1 - 0x80)) * 64 + (b2 - 0x80)]
    else 0xFFFD :: utf8DecodeR [b1, b2]
  | b0 :: b1 :: b2 :: b3 :: rest =>
    if b0 < 0x80 then b0 :: utf8DecodeR (b1 :: b2 :: b3 :: rest)
    else if 0xC2 ≤ b0 ∧ b0 < 0xE0 ∧ isCont b1 then
      ((b0 - 0xC0) * 64 + (b1 - 0x80)) :: utf8DecodeR (b2 :: b3 :: rest)
    else if 0xE0 ≤ b0 ∧ b0 < 0xF0 ∧ isCont b1 ∧ isCont b2 then
      (((b0 - 0xE0) * 64 + (b1 - 0x80)) * 64 + (b2 - 0x80))
        :: utf8DecodeR (b3 :: rest)
    else if 0xF0 ≤ b0 ∧ b0 < 0xF5 ∧ isCont b1 ∧ isCont b2 ∧ isCont b3 then
      ((((b0 - 0xF0) * 64 + (b1 - 0x80)) * 64 + (b2 - 0x80)) * 64 + (b3 - 0x80))
        :: utf8DecodeR rest
    else 0xFFFD :: utf8DecodeR (b1 :: b2 :: b3 :: rest)

/-- The mutable working state of `BasicTokenizer._byte_pair_encode`
(`tokens`, `vocab`, `merges`).  The Python function returns only
`(vocab, merges)`; the final `tokens` value is carried here so that
theorems can speak about training's final token sequence. -/
structure BpeSt where
  tokens : List Nat
  vocab : List (Nat × List Nat)
  merges : List ((Nat × Nat) × Nat)
  deriving DecidableEq, Repr

/-- One iteration of the `for i in range(number_of_merges)` loop of
`BasicTokenizer._byte_pair_encode`: count pairs, take the max pair
(`ValueError` if the dict is empty), form `new_index = original_vocab_size + i`,
merge, and record the merge-table and vocabulary entries. -/
def bpeStep (original_vocab_size i : Nat) (st : BpeSt) : Except TokErr BpeSt :=
  match maxPair (count_pairs st.tokens) with
  | none => .error .maxOfEmpty
  | some top_pair =>
    match Dict.get st.vocab top_pair.1, Dict.get st.vocab top_pair.2 with
    | some b1, some b2 =>
      .ok { tokens := pymerge st.tokens top_pair (original_vocab_size + i),
            vocab := Dict.set st.vocab (original_vocab_size + i) (b1 ++ b2),
            merges := Dict.set st.merges top_pair (original_vocab_size + i) }
    | _, _ => .error .trainKeyError

/-- The loop of `BasicTokenizer._byte_pair_encode`, with `n` iterations
remaining and current loop index `i`. -/
def bpeIter (original_vocab_size : Nat) : Nat → Nat → BpeSt → Except TokErr BpeSt
  | 0, _, st => .ok st
  | n + 1, i, st =>
    match bpeStep original_vocab_size i st with
    | .ok st' => bpeIter original_vocab_size n (i + 1) st'
    | .error e => .error e

/-- `BasicTokenizer._byte_pair_encode` (its full run; the Python function
returns the `vocab` and `merges` components of the result). -/
def byte_pair_encode (tokens : List Nat)
    (original_vocab_size number_of_merges : Nat) : Except TokErr BpeSt :=
  bpeIter original_vocab_size number_of_merges 0
    { tokens := tokens, vocab := vocab0, merges := [] }

/-- `BasicTokenizer`: `_vocab` and `_merges`, both `None` until trained. -/
structure BasicTokenizer where
  vocab : Option (List (Nat × List Nat))
  merges : Option (List ((Nat × Nat) × Nat))
  deriving DecidableEq, Repr

namespace BasicTokenizer

/-- `BasicTokenizer.__init__`. -/
def init : BasicTokenizer := { vocab := none, merges := none }

/-- `BasicTokenizer.train`: UTF-8 encode the text, run
`_byte_pair_encode(tokens, vocab_size, vocab_size - 256)` and store the
result.  Note the Python code passes the target `vocab_size` (not 256) as
`original_vocab_size`, and `range(vocab_size - 256)` is empty when the
difference is not positive (matching Nat subtraction). -/
def train (_t : BasicTokenizer) (text : List Nat) (vocab_size : Nat) :
    Except TokErr BasicTokenizer :=
  match byte_pair_encode (utf8Encode text) vocab_size (vocab_size - 256) with
  | .ok st => .ok { vocab := some st.vocab, merges := some st.merges }
  | .error e => .error e

/-- `BasicTokenizer.encode`: refuse if untrained, else UTF-8 encode and
replay the merge table in stored order. -/
def encode (t : BasicTokenizer) (text : List Nat) : Except TokErr (List Nat) :=
  match t.vocab, t.merges with
  | some _, some merges => .ok (replayMerges merges (utf8Encode text))
  | _, _ => .error .notTrained

/-- `BasicTokenizer.decode`: refuse if untrained, else look every token up
in the vocabulary (`KeyError` → `unknownToken` on a missing id), join the
byte sequences and decode leniently as UTF-8. -/
def decode (t : BasicTokenizer) (encoded_tokens : List Nat) :
    Except TokErr (List Nat) :=
  match t.vocab, t.merges with
  | some vocab, some _ =>
    match vocabBytes vocab encoded_tokens with
    | .ok bss => .ok (utf8DecodeR (concatAll bss))
    | .error e => .error e
  | _, _ => .error .notTrained

end BasicTokenizer

/-- The working state of `RegexTokenizer._byte_pair_encode`: the per-chunk
token lists plus `vocab` and `merges`. -/
structure RegexSt where
  chunks : List (List Nat)
  vocab : List (Nat × List Nat)
  merges : List ((Nat × Nat) × Nat)
  deriving DecidableEq, Repr

/-- One iteration of the loop of `RegexTokenizer._byte_pair_encode`:
accumulate pair counts over all chunks, take the globally max pair, merge
it into every chunk, and record the merge-table and vocabulary entries. -/
def regexStep (original_vocab_size i : Nat) (st : RegexSt) :
    Except TokErr RegexSt :=
  match maxPair (st.chunks.foldl (fun pc chunk => count_pairs_into chunk pc) []) with
  | none => .error .maxOfEmpty
  | some top_pair =>
    match Dict.get st.vocab top_pair.1, Dict.get st.vocab top_pair.2 with
    | some b1, some b2 =>
      .ok { chunks := st.chunks.map
              (fun chunk => pymerge chunk top_pair (original_vocab_size + i)),
            vocab := Dict.set st.vocab (original_vocab_size + i) (b1 ++ b2),
            merges := Dict.set st.merges top_pair (original_vocab_size + i) }
    | _, _ => .error .trainKeyError

/-- The loop of `RegexTokenizer._byte_pair_encode`. -/
def regexIter (original_vocab_size : Nat) : Nat → Nat → RegexSt →
    Except TokErr RegexSt
  | 0, _, st => .ok st
  | n + 1, i, st =>
    match regexStep original_vocab_size i st with
    | .ok st' => regexIter original_vocab_size n (i + 1) st'
    | .error e => .error e

/-- `RegexTokenizer._byte_pair_encode` over a list of chunks. -/
def regex_byte_pair_encode (token_chunks : List (List Nat))
    (original_vocab_size number_of_merges : Nat) : Except TokErr RegexSt :=
  regexIter original_vocab_size number_of_merges 0
    { chunks := token_chunks, vocab := vocab0, merges := [] }

/-- `RegexTokenizer`: `_vocab`, `_merges` and the compiled split pattern.
The `split` field models `re.findall(self._compiled_pattern, text)` with the
fixed `GPT4_SPLIT_PATTERN`; the regex engine and the Unicode property tables
the pattern relies on are external library code, so the splitter is carried
as an opaque instance field, exactly as `_compiled_pattern` is in Python.
Properties of the concrete pattern that a theorem needs (chunks concatenate
back to the input text) appear as explicit hypotheses. -/
structure RegexTokenizer where
  split : List Nat → List (List Nat)
  vocab : Option (List (Nat × List Nat))
  merges : Option (List ((Nat × Nat) × Nat))

namespace RegexTokenizer

/-- `RegexTokenizer.__init__` (compiling and storing the split pattern). -/
def init (split : List Nat → List (List Nat)) : RegexTokenizer :=
  { split := split, vocab := none, merges := none }

/-- `RegexTokenizer.train`: split the text into chunks, UTF-8 encode each
chunk, run `_byte_pair_encode(tokens, vocab_size, vocab_size - 256)` and
store the result. -/
def train (t : RegexTokenizer) (text : List Nat) (vocab_size : Nat) :
    Except TokErr RegexTokenizer :=
  match regex_byte_pair_encode ((t.split text).map utf8Encode) vocab_size
      (vocab_size - 256) with
  | .ok st => .ok { t with vocab := some st.vocab, merges := some st.merges }
  | .error e => .error e

/-- `RegexTokenizer.encode`: refuse if untrained, else split into chunks,
replay the merge table independently over each chunk's bytes, and
concatenate the per-chunk token lists in chunk order. -/
def encode (t : RegexTokenizer) (text : List Nat) : Except TokErr (List Nat) :=
  match t.vocab, t.merges with
  | some _, some merges =>
    .ok (concatAll ((t.split text).map
      (fun chunk => replayMerges merges (utf8Encode chunk))))
  | _, _ => .error .notTrained

/-- `RegexTokenizer.decode` (textually identical to
`BasicTokenizer.decode` in the source). -/
def decode (t : RegexTokenizer) (encoded_tokens : List Nat) :
    Except TokErr (List Nat) :=
  match t.vocab, t.merges with
  | some vocab, some _ =>
    match vocabBytes vocab encoded_tokens with
    | .ok bss => .ok (utf8DecodeR (concatAll bss))
    | .error e => .error e
  | _, _ => .error .notTrained

end RegexTokenizer

/-- The byte expansion of a token sequence under a vocabulary: each token
is replaced by its vocabulary entry (`[]` for a missing id) and the results
are concatenated.  This is the byte content a token sequence stands for. -/
def expandT (vocab : List (Nat × List Nat)) : List Nat → List Nat
  | [] => []
  | t :: rest => ((Dict.get vocab t).getD []) ++ expandT vocab rest

/-- The vocabulary maps every raw byte id to its single byte. -/
def ByteBase (vocab : List (Nat × List Nat)) : Prop :=
  ∀ b, b < 256 → Dict.get vocab b = some [b]

/-- Consistency of a trained state: every merge-table entry `(a, b) ↦ c`
has vocabulary entries for `a`, `b` and `c`, and `c`'s byte expansion is
the concatenation of `a`'s and `b`'s. -/
def TrainedInv (vocab : List (Nat × List Nat))
    (merges : List ((Nat × Nat) × Nat)) : Prop :=
  ∀ pr ∈ merges, ∃ ea eb,
    Dict.get vocab pr.1.1 = some ea ∧ Dict.get vocab pr.1.2 = some eb ∧
    Dict.get vocab pr.2 = some (ea ++ eb)

/-- Loop invariant of `BasicTokenizer._byte_pair_encode` after `i`
iterations with `original_vocab_size = V`, starting from token list `T0`:
all tokens are below the next fresh id, the vocabulary covers the byte
alphabet and satisfies the merge-consistency invariant, every token still
has a vocabulary entry, every recorded merge pair is bounded and no longer
occurs adjacently, and replaying the merge table from `T0` reproduces the
current token list. -/
def BpeInv (V i : Nat) (T0 : List Nat) (st : BpeSt) : Prop :=
  (∀ t ∈ st.tokens, t < V + i) ∧
  ByteBase st.vocab ∧
  TrainedInv st.vocab st.merges ∧
  (∀ pr ∈ st.merges, pr.1.1 < V + i ∧ pr.1.2 < V + i ∧ pr.2 < V + i) ∧
  (∀ pr ∈ st.merges, pr.1 ∉ pairsOf st.tokens) ∧
  (∀ t ∈ st.tokens, ∃ e, Dict.get st.vocab t = some e) ∧
  replayMerges st.merges T0 = st.tokens

/-- Loop invariant of `RegexTokenizer._byte_pair_encode` after `i`
iterations with `original_vocab_size = V`. -/
def RegexInv (V i : Nat) (st : RegexSt) : Prop :=
  (∀ ch ∈ st.chunks, ∀ t ∈ ch, t < V + i) ∧
  ByteBase st.vocab ∧
  TrainedInv st.vocab st.merges ∧
  (∀ pr ∈ st.merges, pr.1.1 < V + i ∧ pr.1.2 < V + i ∧ pr.2 < V + i) ∧
  (∀ ch ∈ st.chunks, ∀ t ∈ ch, ∃ e, Dict.get st.vocab t = some e)

/-! ### Dictionary lemmas -/

theorem Dict.get_set_self {κ ν : Type} [DecidableEq κ]
    (d : List (κ × ν)) (k : κ) (v : ν) : Dict.get (Dict.set d k v) k = some v := by
  induction d with
  | nil => simp [Dict.set, Dict.get]
  | cons e rest ih =>
    by_cases h : e.1 = k
    · simp [Dict.set, h, Dict.get]
    · simp [Dict.set, h, Dict.get, ih]

theorem Dict.get_set_ne {κ ν : Type} [DecidableEq κ]
    (d : List (κ × ν)) (k k' : κ) (v : ν) (h : k' ≠ k) :
    Dict.get (Dict.set d k v) k' = Dict.get d k' := by
  have hkk : ¬(k = k') := fun hh => h hh.symm
  induction d with
  | nil => simp [Dict.set, Dict.get, hkk]
  | cons e rest ih =>
    by_cases hek : e.1 = k
    · simp [Dict.set, hek, Dict.get, hkk]
    · simp [Dict.set, hek, Dict.get, ih]

theorem Dict.not_mem_keys_cons {κ ν : Type} (e : κ × ν) (rest : List (κ × ν))
    (k : κ) (h : k ∉ Dict.keys (e :: rest)) :
    ¬(e.1 = k) ∧ k ∉ Dict.keys rest := by
  constructor
  · intro hh
    exact h (by simp [Dict.keys, hh])
  · intro hh
    exact h (by simp [Dict.keys] at hh ⊢; exact Or.inr hh)

theorem Dict.get_eq_none_of_not_mem_keys {κ ν : Type} [DecidableEq κ]
    (d : List (κ × ν)) (k : κ) (h : k ∉ Dict.keys d) : Dict.get d k = none := by
  induction d with
  | nil => simp [Dict.get]
  | cons e rest ih =>
    obtain ⟨h1, h2⟩ := Dict.not_mem_keys_cons e rest k h
    simp [Dict.get, h1]
    exact ih h2

theorem Dict.set_eq_append {κ ν : Type} [DecidableEq κ]
    (d : List (κ × ν)) (k : κ) (v : ν) (h : k ∉ Dict.keys d) :
    Dict.set d k v = d ++ [(k, v)] := by
  induction d with
  | nil => simp [Dict.set]
  | cons e rest ih =>
    obtain ⟨h1, h2⟩ := Dict.not_mem_keys_cons e rest k h
    simp [Dict.set, h1, ih h2]

theorem Dict.mem_of_mem_set {κ ν : Type} [DecidableEq κ]
    (d : List (κ × ν)) (k : κ) (v : ν) (pr : κ × ν)
    (h : pr ∈ Dict.set d k v) : pr ∈ d ∨ pr = (k, v) := by
  induction d with
  | nil => simp [Dict.set] at h; simp [h]
  | cons e rest ih =>
    by_cases hek : e.1 = k
    · simp [Dict.set, hek] at h
      rcases h with h | h
      · right; simp [h]
      · left; simp [h]
    · simp [Dict.set, hek] at h
      rcases h with h | h
      · left; simp [h]
      · rcases ih h with h2 | h2
        · left; simp [h2]
        · right; exact h2

theorem Dict.keys_set_subset {κ ν : Type} [DecidableEq κ]
    (d : List (κ × ν)) (k : κ) (v : ν) (x : κ)
    (h : x ∈ Dict.keys (Dict.set d k v)) : x ∈ Dict.keys d ∨ x = k := by
  simp [Dict.keys] at h
  obtain ⟨b, hb⟩ := h
  rcases Dict.mem_of_mem_set d k v (x, b) hb with h2 | h2
  · left; simp [Dict.keys]; exact ⟨b, h2⟩
  · right; exact congrArg Prod.fst h2

theorem Dict.get_append {κ ν : Type} [DecidableEq κ]
    (d1 d2 : List (κ × ν)) (k : κ) :
    Dict.get (d1 ++ d2) k =
      match Dict.get d1 k with
      | some v => some v
      | none => Dict.get d2 k := by
  induction d1 with
  | nil => simp [Dict.get]
  | cons e rest ih =>
    by_cases h : e.1 = k
    · simp [Dict.get, h]
    · simp [Dict.get, h, ih]

/-! ### `vocab0` lemmas -/

theorem vocab0_aux (n : Nat) : ∀ b, b < n →
    Dict.get ((List.range n).map (fun i => (i, [i]))) b = some [b] := by
  induction n with
  | zero => intro b hb; omega
  | succ n ih =>
    intro b hb
    rw [List.range_succ, List.map_append, Dict.get_append]
    rcases Nat.lt_or_ge b n with h | h
    · rw [ih b h]
    · have hbn : b = n := by omega
      have hkeys : Dict.keys ((List.range n).map (fun i => (i, [i]))) =
          List.range n := by
        unfold Dict.keys
        rw [List.map_map]
        have hcomp : (Prod.fst ∘ fun i : Nat => (i, ([i] : List Nat))) = id := rfl
        rw [hcomp, List.map_id]
      have hnone : Dict.get ((List.range n).map (fun i => (i, [i]))) b = none := by
        apply Dict.get_eq_none_of_not_mem_keys
        rw [hkeys]
        simp [hbn]
      rw [hnone]
      simp [Dict.get, hbn]

theorem byteBase_vocab0 : ByteBase vocab0 := by
  intro b hb
  exact vocab0_aux 256 b hb

/-! ### Pair-list lemmas -/

theorem pairsOf_nil : pairsOf [] = [] := rfl

theorem pairsOf_single (a : Nat) : pairsOf [a] = [] := rfl

theorem pairsOf_cons₂ (a b : Nat) (l : List Nat) :
    pairsOf (a :: b :: l) = (a, b) :: pairsOf (b :: l) := rfl

theorem pairsOf_short (l : List Nat) (h : l.length < 2) : pairsOf l = [] := by
  match l with
  | [] => rfl
  | [a] => rfl
  | a :: b :: r =>
    exfalso
    have h2 : r.length + 1 + 1 < 2 := by simpa using h
    omega

theorem mem_pairsOf_cons (q : Nat × Nat) (a : Nat) (t : List Nat)
    (h : q ∈ pairsOf t) : q ∈ pairsOf (a :: t) := by
  match t with
  | [] => simp [pairsOf_nil] at h
  | b :: l =>
    rw [pairsOf_cons₂]
    exact List.mem_cons_of_mem _ h

theorem pairsOf_mem_mem (l : List Nat) (q : Nat × Nat) (h : q ∈ pairsOf l) :
    q.1 ∈ l ∧ q.2 ∈ l := by
  unfold pairsOf at h
  obtain ⟨x, y⟩ := q
  have h2 := List.of_mem_zip h
  exact ⟨h2.1, List.mem_of_mem_tail h2.2⟩

/-! ### `pymerge` lemmas -/

theorem pymerge_head (t : Nat) (rest : List Nat) (p : Nat × Nat) (c : Nat) :
    ∃ h tl, pymerge (t :: rest) p c = h :: tl ∧ (h = t ∨ h = c) := by
  match rest with
  | [] => exact ⟨t, [], rfl, Or.inl rfl⟩
  | t1 :: r =>
    simp only [pymerge]
    by_cases hm : p.1 = t ∧ p.2 = t1
    · rw [if_pos hm]
      exact ⟨c, _, rfl, Or.inr rfl⟩
    · rw [if_neg hm]
      exact ⟨t, _, rfl, Or.inl rfl⟩

theorem mem_pymerge : ∀ (s : List Nat) (p : Nat × Nat) (c x : Nat),
    x ∈ pymerge s p c → x ∈ s ∨ x = c
  | [], _, _, _ => by simp [pymerge]
  | [t], _, _, x => by
    simp [pymerge]
    intro h
    exact Or.inl h
  | t0 :: t1 :: rest, p, c, x => by
    simp only [pymerge]
    by_cases hm : p.1 = t0 ∧ p.2 = t1
    · rw [if_pos hm]
      intro hx
      rcases List.mem_cons.mp hx with h | h
      · exact Or.inr h
      · rcases mem_pymerge rest p c x h with h2 | h2
        · exact Or.inl (by simp [h2])
        · exact Or.inr h2
    · rw [if_neg hm]
      intro hx
      rcases List.mem_cons.mp hx with h | h
      · exact Or.inl (by simp [h])
      · rcases mem_pymerge (t1 :: rest) p c x h with h2 | h2
        · exact Or.inl (List.mem_cons_of_mem _ h2)
        · exact Or.inr h2

theorem pair_notmem_pymerge : ∀ (s : List Nat) (p : Nat × Nat) (c : Nat),
    c ≠ p.1 → c ≠ p.2 → p ∉ pairsOf (pymerge s p c)
  | [], p, c, _, _ => by simp [pymerge, pairsOf]
  | [t], p, c, _, _ => by simp [pymerge, pairsOf]
  | t0 :: t1 :: rest, p, c, ha, hb => by
    simp only [pymerge]
    by_cases hm : p.1 = t0 ∧ p.2 = t1
    · rw [if_pos hm]
      intro hmem
      match hrec : pymerge rest p c with
      | [] =>
        rw [hrec] at hmem
        simp [pairsOf] at hmem
      | h1 :: tl =>
        rw [hrec] at hmem
        rw [pairsOf_cons₂] at hmem
        rcases List.mem_cons.mp hmem with h | h
        · have : p.1 = c := congrArg Prod.fst h
          exact ha this.symm
        · rw [← hrec] at h
          exact pair_notmem_pymerge rest p c ha hb h
    · rw [if_neg hm]
      intro hmem
      obtain ⟨h1, tl, heq, hh⟩ := pymerge_head t1 rest p c
      rw [heq, pairsOf_cons₂] at hmem
      rcases List.mem_cons.mp hmem with h | h
      · have hp1 : p.1 = t0 := congrArg Prod.fst h
        have hp2 : p.2 = h1 := congrArg Prod.snd h
        rcases hh with h2 | h2
        · exact hm ⟨hp1, by rw [hp2, h2]⟩
        · exact hb (by rw [hp2, h2])
      · rw [← heq] at h
        exact pair_notmem_pymerge (t1 :: rest) p c ha hb h

theorem pairs_pymerge_subset : ∀ (s : List Nat) (p : Nat × Nat) (c : Nat)
    (q : Nat × Nat), q ∈ pairsOf (pymerge s p c) →
    q ∈ pairsOf s ∨ q.1 = c ∨ q.2 = c
  | [], p, c, q => by simp [pymerge, pairsOf]
  | [t], p, c, q => by simp [pymerge, pairsOf]
  | t0 :: t1 :: rest, p, c, q => by
    simp only [pymerge]
    by_cases hm : p.1 = t0 ∧ p.2 = t1
    · rw [if_pos hm]
      intro hmem
      match hrec : pymerge rest p c with
      | [] =>
        rw [hrec] at hmem
        simp [pairsOf] at hmem
      | h1 :: tl =>
        rw [hrec] at hmem
        rw [pairsOf_cons₂] at hmem
        rcases List.mem_cons.mp hmem with h | h
        · right; left
          rw [h]
        · rw [← hrec] at h
          rcases pairs_pymerge_subset rest p c q h with h2 | h2
          · exact Or.inl (mem_pairsOf_cons q t0 _ (mem_pairsOf_cons q t1 rest h2))
          · exact Or.inr h2
    · rw [if_neg hm]
      intro hmem
      obtain ⟨h1, tl, heq, hh⟩ := pymerge_head t1 rest p c
      rw [heq, pairsOf_cons₂] at hmem
      rcases List.mem_cons.mp hmem with h | h
      · rcases hh with h2 | h2
        · left
          rw [pairsOf_cons₂, h, h2]
          exact List.mem_cons_self _ _
        · right; right
          rw [h, h2]
      · rw [← heq] at h
        rcases pairs_pymerge_subset (t1 :: rest) p c q h with h2 | h2
        · exact Or.inl (mem_pairsOf_cons q t0 _ h2)
        · exact Or.inr h2

/-! ### Pair-count and max-pair lemmas -/

theorem maxPairGo_mem : ∀ (rest : List ((Nat × Nat) × Nat))
    (best : (Nat × Nat) × Nat),
    maxPairGo best rest ∈ best.1 :: Dict.keys rest
  | [], best => by simp [maxPairGo]
  | e :: rest, best => by
    simp only [maxPairGo]
    by_cases h : e.2 > best.2
    · rw [if_pos h]
      rcases List.mem_cons.mp (maxPairGo_mem rest e) with h2 | h2
      · simp [Dict.keys, h2]
      · simp [Dict.keys] at h2 ⊢
        tauto
    · rw [if_neg h]
      rcases List.mem_cons.mp (maxPairGo_mem rest best) with h2 | h2
      · simp [h2]
      · simp [Dict.keys] at h2 ⊢
        tauto

theorem maxPair_mem (d : List ((Nat × Nat) × Nat)) (p : Nat × Nat)
    (h : maxPair d = some p) : p ∈ Dict.keys d := by
  match d with
  | [] => simp [maxPair] at h
  | e :: rest =>
    simp only [maxPair, Option.some.injEq] at h
    rcases List.mem_cons.mp (h ▸ maxPairGo_mem rest e) with h2 | h2
    · simp [Dict.keys, h2]
    · simp [Dict.keys] at h2 ⊢
      tauto

theorem keys_pcIncr_subset (pc : List ((Nat × Nat) × Nat)) (p q : Nat × Nat)
    (h : q ∈ Dict.keys (pcIncr pc p)) : q ∈ Dict.keys pc ∨ q = p :=
  Dict.keys_set_subset pc p _ q h

theorem keys_foldl_pcIncr : ∀ (ps : List (Nat × Nat))
    (pc : List ((Nat × Nat) × Nat)) (q : Nat × Nat),
    q ∈ Dict.keys (ps.foldl pcIncr pc) → q ∈ Dict.keys pc ∨ q ∈ ps
  | [], pc, q => by simp
  | p :: ps, pc, q => by
    intro h
    rcases keys_foldl_pcIncr ps (pcIncr pc p) q (by simpa using h) with h2 | h2
    · rcases keys_pcIncr_subset pc p q h2 with h3 | h3
      · exact Or.inl h3
      · exact Or.inr (by simp [h3])
    · exact Or.inr (List.mem_cons_of_mem _ h2)

theorem keys_count_pairs_subset (tokens : List Nat) (q : Nat × Nat)
    (h : q ∈ Dict.keys (count_pairs tokens)) : q ∈ pairsOf tokens := by
  rcases keys_foldl_pcIncr (pairsOf tokens) [] q h with h2 | h2
  · simp [Dict.keys] at h2
  · exact h2

theorem keys_count_pairs_into_subset (tokens : List Nat)
    (pc : List ((Nat × Nat) × Nat)) (q : Nat × Nat)
    (h : q ∈ Dict.keys (count_pairs_into tokens pc)) :
    q ∈ Dict.keys pc ∨ q ∈ pairsOf tokens :=
  keys_foldl_pcIncr (pairsOf tokens) pc q h

theorem keys_foldl_chunks : ∀ (chunks : List (List Nat))
    (pc : List ((Nat × Nat) × Nat)) (q : Nat × Nat),
    q ∈ Dict.keys (chunks.foldl (fun pc chunk => count_pairs_into chunk pc) pc) →
    q ∈ Dict.keys pc ∨ ∃ ch ∈ chunks, q ∈ pairsOf ch
  | [], pc, q => by simp
  | ch :: chunks, pc, q => by
    intro h
    rcases keys_foldl_chunks chunks (count_pairs_into ch pc) q (by simpa using h)
      with h2 | h2
    · rcases keys_count_pairs_into_subset ch pc q h2 with h3 | h3
      · exact Or.inl h3
      · exact Or.inr ⟨ch, by simp, h3⟩
    · obtain ⟨ch2, hch2, hq⟩ := h2
      exact Or.inr ⟨ch2, List.mem_cons_of_mem _ hch2, hq⟩

theorem count_pairs_nil_of_no_pairs (tokens : List Nat)
    (h : pairsOf tokens = []) : count_pairs tokens = [] := by
  unfold count_pairs
  rw [h]
  rfl

theorem foldl_chunks_nil (chunks : List (List Nat))
    (h : ∀ ch ∈ chunks, pairsOf ch = []) :
    chunks.foldl (fun pc chunk => count_pairs_into chunk pc) [] = [] := by
  induction chunks with
  | nil => rfl
  | cons ch chunks ih =>
    simp only [List.foldl_cons]
    have h1 : count_pairs_into ch [] = [] := by
      unfold count_pairs_into
      rw [h ch (by simp)]
      rfl
    rw [h1]
    exact ih (fun c hc => h c (List.mem_cons_of_mem _ hc))

/-! ### UTF-8 codec lemmas -/

theorem utf8DecodeR_nil : utf8DecodeR [] = [] := rfl

theorem utf8DecodeR_ascii (b : Nat) (r : List Nat) (h : b < 0x80) :
    utf8DecodeR (b :: r) = b :: utf8DecodeR r := by
  match r with
  | [] => simp [utf8DecodeR, h]
  | [b1] => simp [utf8DecodeR, h]
  | [b1, b2] => simp [utf8DecodeR, h]
  | b1 :: b2 :: b3 :: rest => simp [utf8DecodeR, h]

theorem utf8DecodeR_two (b0 b1 : Nat) (r : List Nat)
    (h0 : 0xC2 ≤ b0) (h1 : b0 < 0xE0) (hc : isCont b1 = true) :
    utf8DecodeR (b0 :: b1 :: r) =
      ((b0 - 0xC0) * 64 + (b1 - 0x80)) :: utf8DecodeR r := by
  have hn : ¬(b0 < 0x80) := by omega
  match r with
  | [] => simp [utf8DecodeR, hn, h0, h1, hc]
  | [b2] => simp [utf8DecodeR, hn, h0, h1, hc]
  | b2 :: b3 :: rest => simp [utf8DecodeR, hn, h0, h1, hc]

theorem utf8DecodeR_three (b0 b1 b2 : Nat) (r : List Nat)
    (h0 : 0xE0 ≤ b0) (h1 : b0 < 0xF0) (hc1 : isCont b1 = true)
    (hc2 : isCont b2 = true) :
    utf8DecodeR (b0 :: b1 :: b2 :: r) =
      (((b0 - 0xE0) * 64 + (b1 - 0x80)) * 64 + (b2 - 0x80)) :: utf8DecodeR r := by
  have hn : ¬(b0 < 0x80) := by omega
  have hn2 : ¬(b0 < 0xE0) := by omega
  match r with
  | [] => simp [utf8DecodeR, hn, hn2, h0, h1, hc1, hc2]
  | b3 :: rest => simp [utf8DecodeR, hn, hn2, h0, h1, hc1, hc2]

theorem utf8DecodeR_four (b0 b1 b2 b3 : Nat) (r : List Nat)
    (h0 : 0xF0 ≤ b0) (h1 : b0 < 0xF5) (hc1 : isCont b1 = true)
    (hc2 : isCont b2 = true) (hc3 : isCont b3 = true) :
    utf8DecodeR (b0 :: b1 :: b2 :: b3 :: r) =
      ((((b0 - 0xF0) * 64 + (b1 - 0x80)) * 64 + (b2 - 0x80)) * 64 + (b3 - 0x80))
        :: utf8DecodeR r := by
  have hn : ¬(b0 < 0x80) := by omega
  have hn2 : ¬(b0 < 0xE0) := by omega
  have hn3 : ¬(b0 < 0xF0) := by omega
  simp [utf8DecodeR, hn, hn2, hn3, h0, h1, hc1, hc2, hc3]

theorem utf8Encode_nil : utf8Encode [] = [] := rfl

theorem utf8Encode_cons (c : Nat) (s : List Nat) :
    utf8Encode (c :: s) = utf8EncodeChar c ++ utf8Encode s := rfl

theorem utf8Encode_append (s t : List Nat) :
    utf8Encode (s ++ t) = utf8Encode s ++ utf8Encode t := by
  induction s with
  | nil => simp [utf8Encode_nil]
  | cons c s ih => simp [utf8Encode_cons, ih]

theorem utf8EncodeChar_lt (c : Nat) (h : c < 0x110000) :
    ∀ b ∈ utf8EncodeChar c, b < 256 := by
  intro b hb
  unfold utf8EncodeChar at hb
  split_ifs at hb with h1 h2 h3
  · simp at hb; omega
  · simp at hb
    have hd : c / 64 < 32 := by omega
    have hm : c % 64 < 64 := Nat.mod_lt _ (by omega)
    rcases hb with hb | hb <;> omega
  · simp at hb
    have hd : c / 4096 < 16 := by omega
    have hm1 : (c / 64) % 64 < 64 := Nat.mod_lt _ (by omega)
    have hm2 : c % 64 < 64 := Nat.mod_lt _ (by omega)
    rcases hb with hb | hb | hb <;> omega
  · simp at hb
    have hd : c / 0x40000 < 5 := by omega
    have hm1 : (c / 4096) % 64 < 64 := Nat.mod_lt _ (by omega)
    have hm2 : (c / 64) % 64 < 64 := Nat.mod_lt _ (by omega)
    have hm3 : c % 64 < 64 := Nat.mod_lt _ (by omega)
    rcases hb with hb | hb | hb | hb <;> omega

theorem utf8Encode_lt (s : List Nat) (h : ValidText s) :
    ∀ b ∈ utf8Encode s, b < 256 := by
  induction s with
  | nil => simp [utf8Encode_nil]
  | cons c s ih =>
    intro b hb
    rw [utf8Encode_cons] at hb
    rcases List.mem_append.mp hb with hb | hb
    · have hc : ValidScalar c := h c (by simp)
      have hlt : c < 0x110000 := by
        unfold ValidScalar at hc
        omega
      exact utf8EncodeChar_lt c hlt b hb
    · exact ih (fun x hx => h x (List.mem_cons_of_mem _ hx)) b hb

theorem utf8DecodeR_encodeChar (c : Nat) (h : c < 0x110000) (r : List Nat) :
    utf8DecodeR (utf8EncodeChar c ++ r) = c :: utf8DecodeR r := by
  unfold utf8EncodeChar
  split_ifs with h1 h2 h3
  · simpa using utf8DecodeR_ascii c r h1
  · have e := utf8DecodeR_two (0xC0 + c / 64) (0x80 + c % 64) r
      (by omega) (by omega)
      (by unfold isCont; simp; omega)
    simp only [List.cons_append, List.nil_append] at e ⊢
    rw [e]
    have hc : (0xC0 + c / 64 - 0xC0) * 64 + (0x80 + c % 64 - 0x80) = c := by omega
    rw [hc]
  · have e := utf8DecodeR_three (0xE0 + c / 4096) (0x80 + (c / 64) % 64)
      (0x80 + c % 64) r (by omega) (by omega)
      (by unfold isCont; simp; omega)
      (by unfold isCont; simp; omega)
    simp only [List.cons_append, List.nil_append] at e ⊢
    rw [e]
    have hc : ((0xE0 + c / 4096 - 0xE0) * 64 + (0x80 + (c / 64) % 64 - 0x80)) * 64
        + (0x80 + c % 64 - 0x80) = c := by omega
    rw [hc]
  · have e := utf8DecodeR_four (0xF0 + c / 0x40000) (0x80 + (c / 4096) % 64)
      (0x80 + (c / 64) % 64) (0x80 + c % 64) r (by omega) (by omega)
      (by unfold isCont; simp; omega)
      (by unfold isCont; simp; omega)
      (by unfold isCont; simp; omega)
    simp only [List.cons_append, List.nil_append] at e ⊢
    rw [e]
    have hc : (((0xF0 + c / 0x40000 - 0xF0) * 64 + (0x80 + (c / 4096) % 64 - 0x80))
        * 64 + (0x80 + (c / 64) % 64 - 0x80)) * 64 + (0x80 + c % 64 - 0x80) = c := by
      omega
    rw [hc]

theorem utf8_roundtrip (s : List Nat) (h : ValidText s) :
    utf8DecodeR (utf8Encode s) = s := by
  induction s with
  | nil => rfl
  | cons c s ih =>
    rw [utf8Encode_cons]
    have hc : ValidScalar c := h c (by simp)
    have hlt : c < 0x110000 := by
      unfold ValidScalar at hc
      omega
    rw [utf8DecodeR_encodeChar c hlt]
    rw [ih (fun x hx => h x (List.mem_cons_of_mem _ hx))]

/-! ### Concatenation and expansion lemmas -/

theorem concatAll_nil : concatAll [] = [] := rfl

theorem concatAll_cons (l : List Nat) (ls : List (List Nat)) :
    concatAll (l :: ls) = l ++ concatAll ls := rfl

theorem mem_concatAll (ls : List (List Nat)) (x : Nat) :
    x ∈ concatAll ls ↔ ∃ l ∈ ls, x ∈ l := by
  induction ls with
  | nil => simp [concatAll_nil]
  | cons l ls ih => simp [concatAll_cons, ih]

theorem concatAll_map_utf8 (ls : List (List Nat)) :
    concatAll (ls.map utf8Encode) = utf8Encode (concatAll ls) := by
  induction ls with
  | nil => simp [concatAll_nil, utf8Encode_nil]
  | cons l ls ih =>
    simp only [List.map_cons, concatAll_cons, utf8Encode_append, ih]

theorem expandT_nil (v : List (Nat × List Nat)) : expandT v [] = [] := rfl

theorem expandT_cons (v : List (Nat × List Nat)) (t : Nat) (rest : List Nat) :
    expandT v (t :: rest) = ((Dict.get v t).getD []) ++ expandT v rest := rfl

theorem expandT_eq_self (v : List (Nat × List Nat)) (toks : List Nat)
    (hB : ByteBase v) (hlt : ∀ t ∈ toks, t < 256) : expandT v toks = toks := by
  induction toks with
  | nil => rfl
  | cons t rest ih =>
    rw [expandT_cons, hB t (hlt t (by simp))]
    simp [ih (fun x hx => hlt x (List.mem_cons_of_mem _ hx))]

theorem expandT_pymerge (v : List (Nat × List Nat)) :
    ∀ (s : List Nat) (p : Nat × Nat) (c : Nat) (ea eb : List Nat),
    Dict.get v p.1 = some ea → Dict.get v p.2 = some eb →
    Dict.get v c = some (ea ++ eb) →
    expandT v (pymerge s p c) = expandT v s
  | [], p, c, ea, eb, h1, h2, h3 => rfl
  | [t], p, c, ea, eb, h1, h2, h3 => rfl
  | t0 :: t1 :: rest, p, c, ea, eb, h1, h2, h3 => by
    simp only [pymerge]
    by_cases hm : p.1 = t0 ∧ p.2 = t1
    · rw [if_pos hm]
      rw [expandT_cons, expandT_cons, expandT_cons]
      rw [expandT_pymerge v rest p c ea eb h1 h2 h3]
      rw [← hm.1, ← hm.2, h1, h2, h3]
      simp [List.append_assoc]
    · rw [if_neg hm]
      rw [expandT_cons, expandT_cons]
      rw [expandT_pymerge v (t1 :: rest) p c ea eb h1 h2 h3]

theorem replayMerges_nil (toks : List Nat) : replayMerges [] toks = toks := rfl

theorem replayMerges_cons (pr : (Nat × Nat) × Nat)
    (ms : List ((Nat × Nat) × Nat)) (toks : List Nat) :
    replayMerges (pr :: ms) toks = replayMerges ms (pymerge toks pr.1 pr.2) := rfl

theorem replayMerges_append (ms : List ((Nat × Nat) × Nat))
    (pr : (Nat × Nat) × Nat) (toks : List Nat) :
    replayMerges (ms ++ [pr]) toks =
      pymerge (replayMerges ms toks) pr.1 pr.2 := by
  unfold replayMerges
  rw [List.foldl_append]
  rfl

theorem expandT_replayMerges (v : List (Nat × List Nat)) :
    ∀ (ms : List ((Nat × Nat) × Nat)) (toks : List Nat), TrainedInv v ms →
    expandT v (replayMerges ms toks) = expandT v toks
  | [], toks, _ => rfl
  | pr :: ms, toks, hinv => by
    obtain ⟨ea, eb, h1, h2, h3⟩ := hinv pr (by simp)
    rw [replayMerges_cons]
    rw [expandT_replayMerges v ms _
      (fun q hq => hinv q (List.mem_cons_of_mem _ hq))]
    exact expandT_pymerge v toks pr.1 pr.2 ea eb h1 h2 h3

theorem mem_replayMerges : ∀ (ms : List ((Nat × Nat) × Nat)) (toks : List Nat)
    (t : Nat), t ∈ replayMerges ms toks → t ∈ toks ∨ ∃ pr ∈ ms, t = pr.2
  | [], toks, t => by simp [replayMerges_nil]
  | pr :: ms, toks, t => by
    rw [replayMerges_cons]
    intro h
    rcases mem_replayMerges ms _ t h with h2 | h2
    · rcases mem_pymerge toks pr.1 pr.2 t h2 with h3 | h3
      · exact Or.inl h3
      · exact Or.inr ⟨pr, by simp, h3⟩
    · obtain ⟨pr2, hpr2, hval⟩ := h2
      exact Or.inr ⟨pr2, List.mem_cons_of_mem _ hpr2, hval⟩

theorem entries_replayMerges (v : List (Nat × List Nat))
    (ms : List ((Nat × Nat) × Nat)) (toks : List Nat)
    (hinv : TrainedInv v ms)
    (hent : ∀ t ∈ toks, ∃ e, Dict.get v t = some e) :
    ∀ t ∈ replayMerges ms toks, ∃ e, Dict.get v t = some e := by
  intro t ht
  rcases mem_replayMerges ms toks t ht with h | ⟨pr, hpr, hval⟩
  · exact hent t h
  · obtain ⟨ea, eb, _, _, h3⟩ := hinv pr hpr
    exact ⟨ea ++ eb, hval ▸ h3⟩

/-! ### `vocabBytes` (decode lookup) lemmas -/

theorem vocabBytes_ok (v : List (Nat × List Nat)) :
    ∀ (toks : List Nat), (∀ t ∈ toks, ∃ e, Dict.get v t = some e) →
    ∃ bss, vocabBytes v toks = .ok bss ∧ concatAll bss = expandT v toks
  | [], _ => ⟨[], rfl, rfl⟩
  | t :: rest, h => by
    obtain ⟨e, he⟩ := h t (by simp)
    obtain ⟨bss, hok, hcat⟩ :=
      vocabBytes_ok v rest (fun x hx => h x (List.mem_cons_of_mem _ hx))
    refine ⟨e :: bss, ?_, ?_⟩
    · unfold vocabBytes
      rw [he, hok]
    · rw [concatAll_cons, hcat, expandT_cons, he]
      rfl

theorem vocabBytes_error (v : List (Nat × List Nat)) :
    ∀ (toks : List Nat), (∃ t ∈ toks, Dict.get v t = none) →
    ∃ t ∈ toks, Dict.get v t = none ∧
      vocabBytes v toks = .error (.unknownToken t)
  | [], h => by simp at h
  | t :: rest, h => by
    cases hget : Dict.get v t with
    | none =>
      refine ⟨t, by simp, hget, ?_⟩
      unfold vocabBytes
      rw [hget]
    | some e =>
      have hrest : ∃ x ∈ rest, Dict.get v x = none := by
        obtain ⟨x, hx, hxn⟩ := h
        rcases List.mem_cons.mp hx with h2 | h2
        · rw [h2] at hxn
          rw [hxn] at hget
          cases hget
        · exact ⟨x, h2, hxn⟩
      obtain ⟨x, hx, hxn, herr⟩ := vocabBytes_error v rest hrest
      refine ⟨x, List.mem_cons_of_mem _ hx, hxn, ?_⟩
      unfold vocabBytes
      rw [hget, herr]

/-! ### Training invariant for the Byte (Basic) tokenizer -/

theorem bpeStep_inv (V i : Nat) (T0 : List Nat) (st st' : BpeSt)
    (hV : 256 ≤ V) (hinv : BpeInv V i T0 st)
    (hstep : bpeStep V i st = .ok st') : BpeInv V (i + 1) T0 st' := by
  obtain ⟨hbound, hbase, htinv, hmb, hnp, hent, hreplay⟩ := hinv
  unfold bpeStep at hstep
  cases hm : maxPair (count_pairs st.tokens) with
  | none => rw [hm] at hstep; cases hstep
  | some top =>
    rw [hm] at hstep
    dsimp only at hstep
    have htop : top ∈ pairsOf st.tokens :=
      keys_count_pairs_subset st.tokens top (maxPair_mem _ top hm)
    have hcomp := pairsOf_mem_mem st.tokens top htop
    obtain ⟨e1, he1⟩ := hent top.1 hcomp.1
    obtain ⟨e2, he2⟩ := hent top.2 hcomp.2
    rw [he1, he2] at hstep
    cases hstep
    have hb1 : top.1 < V + i := hbound top.1 hcomp.1
    have hb2 : top.2 < V + i := hbound top.2 hcomp.2
    have hkeys : top ∉ Dict.keys st.merges := by
      intro hk
      simp only [Dict.keys, List.mem_map] at hk
      obtain ⟨pr, hpr, hfst⟩ := hk
      exact hnp pr hpr (hfst ▸ htop)
    refine ⟨?_, ?_, ?_, ?_, ?_, ?_, ?_⟩
    · intro t ht
      rcases mem_pymerge st.tokens top (V + i) t ht with h | h
      · have := hbound t h; omega
      · omega
    · intro b hb
      rw [Dict.get_set_ne _ _ _ _ (by omega)]
      exact hbase b hb
    · intro pr hpr
      rcases Dict.mem_of_mem_set st.merges top (V + i) pr hpr with hold | hnew
      · obtain ⟨ea, eb, g1, g2, g3⟩ := htinv pr hold
        obtain ⟨c1, c2, c3⟩ := hmb pr hold
        exact ⟨ea, eb,
          by rw [Dict.get_set_ne _ _ _ _ (by omega)]; exact g1,
          by rw [Dict.get_set_ne _ _ _ _ (by omega)]; exact g2,
          by rw [Dict.get_set_ne _ _ _ _ (by omega)]; exact g3⟩
      · rw [hnew]
        dsimp only
        exact ⟨e1, e2,
          by rw [Dict.get_set_ne _ _ _ _ (by omega)]; exact he1,
          by rw [Dict.get_set_ne _ _ _ _ (by omega)]; exact he2,
          Dict.get_set_self _ _ _⟩
    · intro pr hpr
      rcases Dict.mem_of_mem_set st.merges top (V + i) pr hpr with hold | hnew
      · obtain ⟨c1, c2, c3⟩ := hmb pr hold
        exact ⟨by omega, by omega, by omega⟩
      · rw [hnew]
        dsimp only
        exact ⟨by omega, by omega, by omega⟩
    · intro pr hpr
      rcases Dict.mem_of_mem_set st.merges top (V + i) pr hpr with hold | hnew
      · intro hcon
        rcases pairs_pymerge_subset st.tokens top (V + i) pr.1 hcon with h | h | h
        · exact hnp pr hold h
        · obtain ⟨c1, c2, c3⟩ := hmb pr hold; omega
        · obtain ⟨c1, c2, c3⟩ := hmb pr hold; omega
      · rw [hnew]
        dsimp only
        exact pair_notmem_pymerge st.tokens top (V + i) (by omega) (by omega)
    · intro t ht
      rcases mem_pymerge st.tokens top (V + i) t ht with h | h
      · obtain ⟨e, he⟩ := hent t h
        have := hbound t h
        exact ⟨e, by rw [Dict.get_set_ne _ _ _ _ (by omega)]; exact he⟩
      · exact ⟨e1 ++ e2, by rw [h]; exact Dict.get_set_self _ _ _⟩
    · rw [Dict.set_eq_append _ _ _ hkeys, replayMerges_append, hreplay]

theorem bpeIter_inv (V : Nat) (T0 : List Nat) :
    ∀ (n i : Nat) (st st' : BpeSt), 256 ≤ V → BpeInv V i T0 st →
    bpeIter V n i st = .ok st' → BpeInv V (i + n) T0 st'
  | 0, i, st, st' => by
    intro hV hinv h
    unfold bpeIter at h
    cases h
    simpa using hinv
  | n + 1, i, st, st' => by
    intro hV hinv h
    unfold bpeIter at h
    cases hs : bpeStep V i st with
    | error e => rw [hs] at h; cases h
    | ok st1 =>
      rw [hs] at h
      have hrec := bpeIter_inv V T0 n (i + 1) st1 st' hV
        (bpeStep_inv V i T0 st st1 hV hinv hs) h
      have heq : (i + 1) + n = i + (n + 1) := by omega
      rw [heq] at hrec
      exact hrec

theorem bpeInv_init (V : Nat) (T0 : List Nat) (hV : 256 ≤ V)
    (hb : ∀ t ∈ T0, t < 256) :
    BpeInv V 0 T0 { tokens := T0, vocab := vocab0, merges := [] } := by
  refine ⟨?_, byteBase_vocab0, ?_, ?_, ?_, ?_, rfl⟩
  · intro t ht
    have := hb t ht
    omega
  · intro pr hpr
    simp at hpr
  · intro pr hpr
    simp at hpr
  · intro pr hpr
    simp at hpr
  · intro t ht
    exact ⟨[t], byteBase_vocab0 t (hb t ht)⟩

theorem basic_train_ok (t tk : BasicTokenizer) (text : List Nat) (V : Nat)
    (h : BasicTokenizer.train t text V = .ok tk) :
    ∃ stf, byte_pair_encode (utf8Encode text) V (V - 256) = .ok stf ∧
      tk = { vocab := some stf.vocab, merges := some stf.merges } := by
  unfold BasicTokenizer.train at h
  cases hbpe : byte_pair_encode (utf8Encode text) V (V - 256) with
  | ok stf =>
    rw [hbpe] at h
    cases h
    exact ⟨stf, rfl, rfl⟩
  | error e => rw [hbpe] at h; cases h

theorem basic_train_inv (t tk : BasicTokenizer) (text : List Nat) (V : Nat)
    (hvalid : ValidText text) (hV : 256 ≤ V)
    (h : BasicTokenizer.train t text V = .ok tk) :
    ∃ stf, byte_pair_encode (utf8Encode text) V (V - 256) = .ok stf ∧
      tk = { vocab := some stf.vocab, merges := some stf.merges } ∧
      BpeInv V (V - 256) (utf8Encode text) stf := by
  obtain ⟨stf, hbpe, htk⟩ := basic_train_ok t tk text V h
  refine ⟨stf, hbpe, htk, ?_⟩
  have h0 := bpeInv_init V (utf8Encode text) hV (utf8Encode_lt text hvalid)
  unfold byte_pair_encode at hbpe
  have hrec := bpeIter_inv V (utf8Encode text) (V - 256) 0 _ stf hV h0 hbpe
  simpa using hrec

/-! ### Training invariant for the Chunked (Regex) tokenizer -/

theorem regexStep_inv (V i : Nat) (st st' : RegexSt)
    (hV : 256 ≤ V) (hinv : RegexInv V i st)
    (hstep : regexStep V i st = .ok st') : RegexInv V (i + 1) st' := by
  obtain ⟨hbound, hbase, htinv, hmb, hent⟩ := hinv
  unfold regexStep at hstep
  cases hm : maxPair
      (st.chunks.foldl (fun pc chunk => count_pairs_into chunk pc) []) with
  | none => rw [hm] at hstep; cases hstep
  | some top =>
    rw [hm] at hstep
    dsimp only at hstep
    have htop : ∃ ch ∈ st.chunks, top ∈ pairsOf ch := by
      rcases keys_foldl_chunks st.chunks [] top (maxPair_mem _ top hm) with h | h
      · simp [Dict.keys] at h
      · exact h
    obtain ⟨ch, hch, htopch⟩ := htop
    have hcomp := pairsOf_mem_mem ch top htopch
    obtain ⟨e1, he1⟩ := hent ch hch top.1 hcomp.1
    obtain ⟨e2, he2⟩ := hent ch hch top.2 hcomp.2
    rw [he1, he2] at hstep
    cases hstep
    have hb1 : top.1 < V + i := hbound ch hch top.1 hcomp.1
    have hb2 : top.2 < V + i := hbound ch hch top.2 hcomp.2
    refine ⟨?_, ?_, ?_, ?_, ?_⟩
    · intro ch2 hch2 t ht
      simp only [List.mem_map] at hch2
      obtain ⟨ch0, hch0, hmap⟩ := hch2
      rw [← hmap] at ht
      rcases mem_pymerge ch0 top (V + i) t ht with h | h
      · have := hbound ch0 hch0 t h; omega
      · omega
    · intro b hb
      rw [Dict.get_set_ne _ _ _ _ (by omega)]
      exact hbase b hb
    · intro pr hpr
      rcases Dict.mem_of_mem_set st.merges top (V + i) pr hpr with hold | hnew
      · obtain ⟨ea, eb, g1, g2, g3⟩ := htinv pr hold
        obtain ⟨c1, c2, c3⟩ := hmb pr hold
        exact ⟨ea, eb,
          by rw [Dict.get_set_ne _ _ _ _ (by omega)]; exact g1,
          by rw [Dict.get_set_ne _ _ _ _ (by omega)]; exact g2,
          by rw [Dict.get_set_ne _ _ _ _ (by omega)]; exact g3⟩
      · rw [hnew]
        dsimp only
        exact ⟨e1, e2,
          by rw [Dict.get_set_ne _ _ _ _ (by omega)]; exact he1,
          by rw [Dict.get_set_ne _ _ _ _ (by omega)]; exact he2,
          Dict.get_set_self _ _ _⟩
    · intro pr hpr
      rcases Dict.mem_of_mem_set st.merges top (V + i) pr hpr with hold | hnew
      · obtain ⟨c1, c2, c3⟩ := hmb pr hold
        exact ⟨by omega, by omega, by omega⟩
      · rw [hnew]
        dsimp only
        exact ⟨by omega, by omega, by omega⟩
    · intro ch2 hch2 t ht
      simp only [List.mem_map] at hch2
      obtain ⟨ch0, hch0, hmap⟩ := hch2
      rw [← hmap] at ht
      rcases mem_pymerge ch0 top (V + i) t ht with h | h
      · obtain ⟨e, he⟩ := hent ch0 hch0 t h
        have := hbound ch0 hch0 t h
        exact ⟨e, by rw [Dict.get_set_ne _ _ _ _ (by omega)]; exact he⟩
      · exact ⟨e1 ++ e2, by rw [h]; exact Dict.get_set_self _ _ _⟩

theorem regexIter_inv (V : Nat) :
    ∀ (n i : Nat) (st st' : RegexSt), 256 ≤ V → RegexInv V i st →
    regexIter V n i st = .ok st' → RegexInv V (i + n) st'
  | 0, i, st, st' => by
    intro hV hinv h
    unfold regexIter at h
    cases h
    simpa using hinv
  | n + 1, i, st, st' => by
    intro hV hinv h
    unfold regexIter at h
    cases hs : regexStep V i st with
    | error e => rw [hs] at h; cases h
    | ok st1 =>
      rw [hs] at h
      have hrec := regexIter_inv V n (i + 1) st1 st' hV
        (regexStep_inv V i st st1 hV hinv hs) h
      have heq : (i + 1) + n = i + (n + 1) := by omega
      rw [heq] at hrec
      exact hrec

theorem regexInv_init (V : Nat) (chunks : List (List Nat)) (hV : 256 ≤ V)
    (hb : ∀ ch ∈ chunks, ∀ t ∈ ch, t < 256) :
    RegexInv V 0 { chunks := chunks, vocab := vocab0, merges := [] } := by
  refine ⟨?_, byteBase_vocab0, ?_, ?_, ?_⟩
  · intro ch hch t ht
    have := hb ch hch t ht
    omega
  · intro pr hpr
    simp at hpr
  · intro pr hpr
    simp at hpr
  · intro ch hch t ht
    exact ⟨[t], byteBase_vocab0 t (hb ch hch t ht)⟩

theorem regex_train_ok (t tk : RegexTokenizer) (text : List Nat) (V : Nat)
    (h : RegexTokenizer.train t text V = .ok tk) :
    ∃ stf, regex_byte_pair_encode ((t.split text).map utf8Encode) V (V - 256) =
        .ok stf ∧
      tk = { split := t.split, vocab := some stf.vocab,
             merges := some stf.merges } := by
  unfold RegexTokenizer.train at h
  cases hbpe : regex_byte_pair_encode ((t.split text).map utf8Encode) V
      (V - 256) with
  | ok stf =>
    rw [hbpe] at h
    cases h
    exact ⟨stf, rfl, rfl⟩
  | error e => rw [hbpe] at h; cases h

theorem regex_train_inv (t tk : RegexTokenizer) (text : List Nat) (V : Nat)
    (hchval : ∀ ch ∈ t.split text, ValidText ch) (hV : 256 ≤ V)
    (h : RegexTokenizer.train t text V = .ok tk) :
    ∃ stf, regex_byte_pair_encode ((t.split text).map utf8Encode) V (V - 256) =
        .ok stf ∧
      tk = { split := t.split, vocab := some stf.vocab,
             merges := some stf.merges } ∧
      RegexInv V (V - 256) stf := by
  obtain ⟨stf, hbpe, htk⟩ := regex_train_ok t tk text V h
  refine ⟨stf, hbpe, htk, ?_⟩
  have hb : ∀ ch ∈ (t.split text).map utf8Encode, ∀ x ∈ ch, x < 256 := by
    intro ch hch x hx
    simp only [List.mem_map] at hch
    obtain ⟨ch0, hch0, hmap⟩ := hch
    rw [← hmap] at hx
    exact utf8Encode_lt ch0 (hchval ch0 hch0) x hx
  have h0 := regexInv_init V ((t.split text).map utf8Encode) hV hb
  unfold regex_byte_pair_encode at hbpe
  have hrec := regexIter_inv V (V - 256) 0 _ stf hV h0 hbpe
  simpa using hrec

/-! ### Further helper lemmas -/

theorem expandT_append (v : List (Nat × List Nat)) (l1 l2 : List Nat) :
    expandT v (l1 ++ l2) = expandT v l1 ++ expandT v l2 := by
  induction l1 with
  | nil => rfl
  | cons t rest ih => simp [expandT_cons, ih]

theorem expandT_concatAll (v : List (Nat × List Nat)) (ls : List (List Nat)) :
    expandT v (concatAll ls) = concatAll (ls.map (expandT v)) := by
  induction ls with
  | nil => rfl
  | cons l ls ih => simp [concatAll_cons, expandT_append, ih]

theorem bpeIter_error (V n i : Nat) (st : BpeSt) (e : TokErr)
    (h : bpeStep V i st = .error e) : bpeIter V (n + 1) i st = .error e := by
  unfold bpeIter
  rw [h]

theorem regexIter_error (V n i : Nat) (st : RegexSt) (e : TokErr)
    (h : regexStep V i st = .error e) : regexIter V (n + 1) i st = .error e := by
  unfold regexIter
  rw [h]

/-! ### Claim theorems -/

/-- C6: `_merge(sequence, pair, replacement)` (a pure function in this
embedding — it builds a new list, never mutating its input) replaces every
non-overlapping left-to-right occurrence of the pair greedily:
`merge([X,X,X], (X,X), Y) = [Y, X]` for every token `X` and replacement
`Y`, and never `[Y, Y]` (when the lists are distinguishable, i.e. `X ≠ Y`);
moreover, with a replacement token distinct from both components, no
occurrence of the pair survives the merge. -/
theorem claim_C6_merge :
    (∀ X Y : Nat, pymerge [X, X, X] (X, X) Y = [Y, X]) ∧
    (∀ X Y : Nat, X ≠ Y → pymerge [X, X, X] (X, X) Y ≠ [Y, Y]) ∧
    (∀ (s : List Nat) (p : Nat × Nat) (c : Nat), c ≠ p.1 → c ≠ p.2 →
      p ∉ pairsOf (pymerge s p c)) := by
  refine ⟨?_, ?_, pair_notmem_pymerge⟩
  · intro X Y
    simp [pymerge]
  · intro X Y hXY
    simp [pymerge]
    intro h
    exact hXY h

/-- Witness for C6 at concrete inputs. -/
theorem claim_C6_merge_witness :
    pymerge [3, 3, 3] (3, 3) 7 = [7, 3] ∧
    pymerge [3, 3, 3] (3, 3) 7 ≠ [7, 7] ∧
    (1, 2) ∉ pairsOf (pymerge [1, 2, 5, 1, 2] (1, 2) 9) :=
  ⟨claim_C6_merge.1 3 7, claim_C6_merge.2.1 3 7 (by decide),
   claim_C6_merge.2.2 [1, 2, 5, 1, 2] (1, 2) 9 (by decide) (by decide)⟩

/-- C5: on a freshly constructed tokenizer of either variant (both
trained-state fields are `None`), every `encode` call and every `decode`
call fails with the NotTrained error, whatever the input. -/
theorem claim_C5_untrained :
    ∀ (text toks : List Nat) (sp : List Nat → List (List Nat)),
      BasicTokenizer.init.encode text = .error .notTrained ∧
      BasicTokenizer.init.decode toks = .error .notTrained ∧
      (RegexTokenizer.init sp).encode text = .error .notTrained ∧
      (RegexTokenizer.init sp).decode toks = .error .notTrained :=
  fun _ _ _ => ⟨rfl, rfl, rfl, rfl⟩

/-- C4 is false on the code: with `vocab_size = 100` (so
`vocab_size - 256 < 0`) `train` raises nothing at all — on both variants it
succeeds, storing the 256-entry byte vocabulary and an empty merge table.
No InvalidConfiguration error exists anywhere in the code. -/
theorem claim_C4_counterexample :
    BasicTokenizer.init.train [97, 98] 100 =
      .ok { vocab := some vocab0, merges := some [] } ∧
    ((RegexTokenizer.init (fun s => [s])).train [97, 98] 100).map
        (fun tk => (tk.vocab, tk.merges)) =
      .ok (some vocab0, some []) :=
  ⟨rfl, rfl⟩

/-- C4 amended: for every text and every `vocab_size` at or below the
256-entry base alphabet (`vocab_size - 256 ≤ 0`, which in Python makes
`range(number_of_merges)` empty), `train` succeeds on both variants and
performs zero merges: the stored vocabulary is exactly the 256 byte entries
and the merge table is empty; no error of any kind is raised. -/
theorem claim_C4_amended (t : BasicTokenizer) (tr : RegexTokenizer)
    (text : List Nat) (V : Nat) (hV : V ≤ 256) :
    BasicTokenizer.train t text V =
      .ok { vocab := some vocab0, merges := some [] } ∧
    (RegexTokenizer.train tr text V).map (fun tk => (tk.vocab, tk.merges)) =
      .ok (some vocab0, some []) := by
  have hn : V - 256 = 0 := by omega
  constructor
  · unfold BasicTokenizer.train byte_pair_encode
    rw [hn]
    rfl
  · unfold RegexTokenizer.train regex_byte_pair_encode
    rw [hn]
    rfl

/-- Witness for the amended C4 at a concrete input. -/
theorem claim_C4_amended_witness :
    BasicTokenizer.train BasicTokenizer.init [97, 98] 255 =
      .ok { vocab := some vocab0, merges := some [] } ∧
    (RegexTokenizer.train (RegexTokenizer.init (fun s => [s])) [97, 98] 255).map
        (fun tk => (tk.vocab, tk.merges)) =
      .ok (some vocab0, some []) :=
  claim_C4_amended BasicTokenizer.init (RegexTokenizer.init (fun s => [s]))
    [97, 98] 255 (by omega)

/-- C10: training is not total above the base alphabet.  For
`vocab_size > 256`, a Byte-Tokenizer corpus whose UTF-8 encoding is shorter
than 2 bytes — and, for the Chunked Tokenizer, any input all of whose
chunks have fewer than 2 bytes — makes the first merge iteration take
`max()` of an empty pair-count dict, so `train` fails with the ValueError
(`maxOfEmpty`), an error distinct from the three specified kinds
(NotTrained, UnknownToken; no InvalidConfiguration exists at all).  Since
`train` only returns a new trained state on success (the Python code
assigns `_vocab`/`_merges` only after the loop), a failing call leaves any
previously trained state unchanged. -/
theorem claim_C10_empty_counts :
    (∀ (t : BasicTokenizer) (T : List Nat) (V : Nat),
      (utf8Encode T).length < 2 → 256 < V →
      BasicTokenizer.train t T V = .error .maxOfEmpty) ∧
    (∀ (t : RegexTokenizer) (T : List Nat) (V : Nat),
      (∀ ch ∈ t.split T, (utf8Encode ch).length < 2) → 256 < V →
      RegexTokenizer.train t T V = .error .maxOfEmpty) ∧
    TokErr.maxOfEmpty ≠ TokErr.notTrained ∧
    (∀ n : Nat, TokErr.maxOfEmpty ≠ TokErr.unknownToken n) := by
  refine ⟨?_, ?_, by decide, fun n h => TokErr.noConfusion h⟩
  · intro t T V hlen hV
    have hpc : count_pairs (utf8Encode T) = [] :=
      count_pairs_nil_of_no_pairs _ (pairsOf_short _ hlen)
    have hstep : bpeStep V 0
        { tokens := utf8Encode T, vocab := vocab0, merges := [] } =
        .error .maxOfEmpty := by
      unfold bpeStep
      dsimp only
      rw [hpc]
      rfl
    obtain ⟨k, hk⟩ : ∃ k, V - 256 = k + 1 := ⟨V - 257, by omega⟩
    have hbpe : byte_pair_encode (utf8Encode T) V (V - 256) =
        .error .maxOfEmpty := by
      unfold byte_pair_encode
      rw [hk]
      exact bpeIter_error V k 0 _ _ hstep
    unfold BasicTokenizer.train
    rw [hbpe]
  · intro t T V hlen hV
    have hcounts : (((t.split T).map utf8Encode).foldl
        (fun pc chunk => count_pairs_into chunk pc) []) = [] := by
      apply foldl_chunks_nil
      intro ch hch
      simp only [List.mem_map] at hch
      obtain ⟨ch0, hch0, hmap⟩ := hch
      rw [← hmap]
      exact pairsOf_short _ (hlen ch0 hch0)
    have hstep : regexStep V 0
        { chunks := (t.split T).map utf8Encode, vocab := vocab0,
          merges := [] } = .error .maxOfEmpty := by
      unfold regexStep
      dsimp only
      rw [hcounts]
      rfl
    obtain ⟨k, hk⟩ : ∃ k, V - 256 = k + 1 := ⟨V - 257, by omega⟩
    have hbpe : regex_byte_pair_encode ((t.split T).map utf8Encode) V
        (V - 256) = .error .maxOfEmpty := by
      unfold regex_byte_pair_encode
      rw [hk]
      exact regexIter_error V k 0 _ _ hstep
    unfold RegexTokenizer.train
    rw [hbpe]

/-- Witness for C10: the 1-byte text "a" with `vocab_size = 257`. -/
theorem claim_C10_empty_counts_witness :
    BasicTokenizer.train BasicTokenizer.init [97] 257 =
      .error .maxOfEmpty ∧
    RegexTokenizer.train (RegexTokenizer.init (fun s => [s])) [97] 257 =
      .error .maxOfEmpty :=
  ⟨claim_C10_empty_counts.1 BasicTokenizer.init [97] 257 (by decide)
     (by omega),
   claim_C10_empty_counts.2.1 (RegexTokenizer.init (fun s => [s])) [97] 257
     (by intro ch hch; simp [RegexTokenizer.init] at hch; rw [hch]; decide)
     (by omega)⟩

/-- C9: on a trained tokenizer of either variant, `decode` fails with
UnknownToken exactly when some id in the token list has no Vocabulary Table
entry (the error carries such an id — the first one, matching Python's
KeyError); when every id has an entry, decode always succeeds: the lenient
UTF-8 decoding step never fails, substituting U+FFFD for invalid byte
spans. -/
theorem claim_C9_decode_errors :
    ∀ (v : List (Nat × List Nat)) (m : List ((Nat × Nat) × Nat))
      (sp : List Nat → List (List Nat)) (toks : List Nat),
      ((∀ id ∈ toks, ∃ e, Dict.get v id = some e) →
        ∃ s, BasicTokenizer.decode
            { vocab := some v, merges := some m } toks = .ok s ∧
          RegexTokenizer.decode
            { split := sp, vocab := some v, merges := some m } toks = .ok s) ∧
      ((∃ id ∈ toks, Dict.get v id = none) →
        ∃ id ∈ toks, Dict.get v id = none ∧
          BasicTokenizer.decode { vocab := some v, merges := some m } toks =
            .error (.unknownToken id) ∧
          RegexTokenizer.decode
              { split := sp, vocab := some v, merges := some m } toks =
            .error (.unknownToken id)) := by
  intro v m sp toks
  constructor
  · intro h
    obtain ⟨bss, hok, hcat⟩ := vocabBytes_ok v toks h
    refine ⟨utf8DecodeR (concatAll bss), ?_, ?_⟩
    · unfold BasicTokenizer.decode
      dsimp only
      rw [hok]
    · unfold RegexTokenizer.decode
      dsimp only
      rw [hok]
  · intro h
    obtain ⟨id, hid, hnone, herr⟩ := vocabBytes_error v toks h
    refine ⟨id, hid, hnone, ?_, ?_⟩
    · unfold BasicTokenizer.decode
      dsimp only
      rw [herr]
    · unfold RegexTokenizer.decode
      dsimp only
      rw [herr]

/-- Witness for C9: id 97 is in the byte vocabulary (decode succeeds),
id 300 is not (decode fails with UnknownToken 300). -/
theorem claim_C9_decode_errors_witness :
    (∃ s, BasicTokenizer.decode
        { vocab := some vocab0, merges := some [] } [97] = .ok s ∧
      RegexTokenizer.decode
        { split := fun s => [s], vocab := some vocab0, merges := some [] }
        [97] = .ok s) ∧
    (∃ id ∈ [300], Dict.get vocab0 id = none ∧
      BasicTokenizer.decode { vocab := some vocab0, merges := some [] }
        [300] = .error (.unknownToken id) ∧
      RegexTokenizer.decode
        { split := fun s => [s], vocab := some vocab0, merges := some [] }
        [300] = .error (.unknownToken id)) :=
  ⟨(claim_C9_decode_errors vocab0 [] (fun s => [s]) [97]).1
     (by
       intro id hid
       simp at hid
       rw [hid]
       exact ⟨[97], by decide⟩),
   (claim_C9_decode_errors vocab0 [] (fun s => [s]) [300]).2
     ⟨300, by simp, by decide⟩⟩

/-- C1 fails on the code (documented here by concrete evaluation):
training "aaab" (= `[97,97,97,98]`) with `vocab_size = 257` does give a
257-entry Vocabulary Table and a `257 - 256 = 1`-entry Merge Table, but
the merge created at iteration 0 receives token id `257 = vocab_size + 0`,
NOT `256 + 0`: `train` passes the target `vocab_size` instead of the
256-byte alphabet size as `original_vocab_size` to `_byte_pair_encode`
(whose docstring says it expects "the original number of unique tokens in
the vocabulary"), so learned ids start at `vocab_size` and id 256 is never
assigned. -/
theorem claim_C1_ids :
    BasicTokenizer.train BasicTokenizer.init [97, 97, 97, 98] 257 =
      .ok { vocab := some (vocab0 ++ [(257, [97, 97])]),
            merges := some [((97, 97), 257)] } ∧
    (vocab0 ++ [(257, [97, 97])]).length = 257 ∧
    ([((97, 97), 257)] : List ((Nat × Nat) × Nat)).length = 257 - 256 ∧
    Dict.get (vocab0 ++ [(257, [97, 97])]) 256 = none ∧
    Dict.get [((97, 97), 257)] (97, 97) = some 257 ∧ (257 : Nat) ≠ 256 + 0 :=
  ⟨rfl, by decide, by decide, by decide, by decide, by decide⟩

/-- C2 fails on the code (documented here by concrete evaluation): after
training on "aaab" with `vocab_size = 257` there is exactly one merge, of
the pair `(97, 97)`, but it maps to token `257`, not `256`;
`encode("aaab")` returns `[257, 97, 98]`, not `[256, 97, 98]`; and
`decode([256, 97, 98])` raises KeyError (UnknownToken 256) because id 256
has no vocabulary entry, while `decode([257, 97, 98])` returns "aaab". -/
theorem claim_C2_concrete :
    (BasicTokenizer.train BasicTokenizer.init [97, 97, 97, 98] 257).map
        (fun tk => tk.merges) = .ok (some [((97, 97), 257)]) ∧
    BasicTokenizer.encode
      { vocab := some (vocab0 ++ [(257, [97, 97])]),
        merges := some [((97, 97), 257)] } [97, 97, 97, 98] =
      .ok [257, 97, 98] ∧
    BasicTokenizer.decode
      { vocab := some (vocab0 ++ [(257, [97, 97])]),
        merges := some [((97, 97), 257)] } [256, 97, 98] =
      .error (.unknownToken 256) ∧
    BasicTokenizer.decode
      { vocab := some (vocab0 ++ [(257, [97, 97])]),
        merges := some [((97, 97), 257)] } [257, 97, 98] =
      .ok [97, 97, 97, 98] :=
  ⟨rfl, rfl, rfl, rfl⟩

/-- C7: on the Byte Tokenizer, `encode` UTF-8 encodes the text and replays
the stored Merge Table in its stored (training) order — definitionally,
`encode` returns `replayMerges merges (utf8Encode text)` — and for the
training corpus itself this reproduces exactly the final token sequence
reached at the end of training (the `tokens` component of the
`_byte_pair_encode` run that `train` stored). -/
theorem claim_C7_encode_replays_training (t tk : BasicTokenizer)
    (T : List Nat) (V : Nat) (hvalid : ValidText T)
    (h : BasicTokenizer.train t T V = .ok tk) :
    ∃ stf, byte_pair_encode (utf8Encode T) V (V - 256) = .ok stf ∧
      tk.merges = some stf.merges ∧
      tk.encode T = .ok (replayMerges stf.merges (utf8Encode T)) ∧
      tk.encode T = .ok stf.tokens := by
  rcases Nat.lt_or_ge V 256 with hV | hV
  · obtain ⟨stf, hbpe, htk⟩ := basic_train_ok t tk T V h
    have h0 : V - 256 = 0 := by omega
    rw [h0] at hbpe
    unfold byte_pair_encode bpeIter at hbpe
    cases hbpe
    subst htk
    refine ⟨_, ?_, rfl, rfl, rfl⟩
    rw [h0]
    rfl
  · obtain ⟨stf, hbpe, htk, hinv⟩ := basic_train_inv t tk T V hvalid hV h
    obtain ⟨_, _, _, _, _, _, hreplay⟩ := hinv
    subst htk
    refine ⟨stf, hbpe, rfl, rfl, ?_⟩
    show Except.ok (replayMerges stf.merges (utf8Encode T)) =
      Except.ok stf.tokens
    rw [hreplay]

/-- Witness for C7: the "aaab" training run with `vocab_size = 257`. -/
theorem claim_C7_encode_replays_training_witness :
    ∃ stf, byte_pair_encode (utf8Encode [97, 97, 97, 98]) 257 (257 - 256) =
        .ok stf ∧
      ({ vocab := some (vocab0 ++ [(257, [97, 97])]),
         merges := some [((97, 97), 257)] } : BasicTokenizer).merges =
        some stf.merges ∧
      BasicTokenizer.encode
        { vocab := some (vocab0 ++ [(257, [97, 97])]),
          merges := some [((97, 97), 257)] } [97, 97, 97, 98] =
        .ok (replayMerges stf.merges (utf8Encode [97, 97, 97, 98])) ∧
      BasicTokenizer.encode
        { vocab := some (vocab0 ++ [(257, [97, 97])]),
          merges := some [((97, 97), 257)] } [97, 97, 97, 98] =
        .ok stf.tokens :=
  claim_C7_encode_replays_training BasicTokenizer.init
    { vocab := some (vocab0 ++ [(257, [97, 97])]),
      merges := some [((97, 97), 257)] }
    [97, 97, 97, 98] 257 (by decide) rfl

/-- C3: round trip.  For either tokenizer variant whose trained state came
from a successful `train` call with `vocab_size ≥ 256`, and every UTF-8
encodable text `T`, `decode(encode(T)) = T`.  For the Chunked Tokenizer
the (external regex engine's) splitter is assumed to cut a string into
chunks that concatenate back to it — the defining property of the fixed
GPT-4 split pattern, whose alternatives jointly cover every character. -/
theorem claim_C3_roundtrip (C T : List Nat) (V : Nat)
    (tkB : BasicTokenizer) (tr tkR : RegexTokenizer)
    (hC : ValidText C) (hT : ValidText T) (hV : 256 ≤ V) :
    (BasicTokenizer.train BasicTokenizer.init C V = .ok tkB →
      ∃ toks, tkB.encode T = .ok toks ∧ tkB.decode toks = .ok T) ∧
    (concatAll (tr.split C) = C → concatAll (tr.split T) = T →
     RegexTokenizer.train tr C V = .ok tkR →
      ∃ toks, tkR.encode T = .ok toks ∧ tkR.decode toks = .ok T) := by
  constructor
  · intro htr
    obtain ⟨stf, hbpe, htk, hinv⟩ :=
      basic_train_inv BasicTokenizer.init tkB C V hC hV htr
    obtain ⟨hbound, hbase, htinv, hmb, hnp, hent, hreplay⟩ := hinv
    subst htk
    refine ⟨replayMerges stf.merges (utf8Encode T), rfl, ?_⟩
    have hTb : ∀ b ∈ utf8Encode T, b < 256 := utf8Encode_lt T hT
    have hentT : ∀ b ∈ utf8Encode T, ∃ e, Dict.get stf.vocab b = some e :=
      fun b hb => ⟨[b], hbase b (hTb b hb)⟩
    have hentR := entries_replayMerges stf.vocab stf.merges (utf8Encode T)
      htinv hentT
    obtain ⟨bss, hok, hcat⟩ := vocabBytes_ok stf.vocab _ hentR
    unfold BasicTokenizer.decode
    dsimp only
    rw [hok]
    dsimp only
    rw [hcat, expandT_replayMerges stf.vocab stf.merges _ htinv,
      expandT_eq_self stf.vocab _ hbase hTb, utf8_roundtrip T hT]
  · intro hcovC hcovT htr
    have hchvalC : ∀ ch ∈ tr.split C, ValidText ch := by
      intro ch hch x hx
      exact hC x (by rw [← hcovC]; exact (mem_concatAll _ x).mpr ⟨ch, hch, hx⟩)
    obtain ⟨stf, hbpe, htk, hinv⟩ := regex_train_inv tr tkR C V hchvalC hV htr
    obtain ⟨hboundc, hbase, htinv, hmb, hentc⟩ := hinv
    subst htk
    refine ⟨concatAll ((tr.split T).map
      (fun ch => replayMerges stf.merges (utf8Encode ch))), rfl, ?_⟩
    have hchvalT : ∀ ch ∈ tr.split T, ValidText ch := by
      intro ch hch x hx
      exact hT x (by rw [← hcovT]; exact (mem_concatAll _ x).mpr ⟨ch, hch, hx⟩)
    have hentcat : ∀ tok ∈ concatAll ((tr.split T).map
        (fun ch => replayMerges stf.merges (utf8Encode ch))),
        ∃ e, Dict.get stf.vocab tok = some e := by
      intro tok htok
      rw [mem_concatAll] at htok
      obtain ⟨l, hl, htokl⟩ := htok
      simp only [List.mem_map] at hl
      obtain ⟨ch, hch, hmap⟩ := hl
      rw [← hmap] at htokl
      have hchb : ∀ b ∈ utf8Encode ch, b < 256 :=
        utf8Encode_lt ch (hchvalT ch hch)
      exact entries_replayMerges stf.vocab stf.merges (utf8Encode ch) htinv
        (fun b hb => ⟨[b], hbase b (hchb b hb)⟩) tok htokl
    obtain ⟨bss, hok, hcat⟩ := vocabBytes_ok stf.vocab _ hentcat
    unfold RegexTokenizer.decode
    dsimp only
    rw [hok]
    dsimp only
    rw [hcat, expandT_concatAll, List.map_map]
    have hmap2 : (tr.split T).map
        ((expandT stf.vocab) ∘
          (fun ch => replayMerges stf.merges (utf8Encode ch))) =
        (tr.split T).map utf8Encode := by
      apply List.map_congr_left
      intro ch hch
      simp only [Function.comp]
      rw [expandT_replayMerges stf.vocab stf.merges _ htinv]
      exact expandT_eq_self stf.vocab _ hbase
        (utf8Encode_lt ch (hchvalT ch hch))
    rw [hmap2, concatAll_map_utf8, hcovT, utf8_roundtrip T hT]

/-- Witness for C3, at corpus "aaab", text "ab", `vocab_size = 257`, with
the one-chunk splitter for the chunked variant. -/
theorem claim_C3_roundtrip_witness :
    (∃ toks, BasicTokenizer.encode
        { vocab := some (vocab0 ++ [(257, [97, 97])]),
          merges := some [((97, 97), 257)] } [97, 98] = .ok toks ∧
      BasicTokenizer.decode
        { vocab := some (vocab0 ++ [(257, [97, 97])]),
          merges := some [((97, 97), 257)] } toks = .ok [97, 98]) ∧
    (∃ toks, RegexTokenizer.encode
        { split := fun s => [s], vocab := some (vocab0 ++ [(257, [97, 97])]),
          merges := some [((97, 97), 257)] } [97, 98] = .ok toks ∧
      RegexTokenizer.decode
        { split := fun s => [s], vocab := some (vocab0 ++ [(257, [97, 97])]),
          merges := some [((97, 97), 257)] } toks = .ok [97, 98]) := by
  have h := claim_C3_roundtrip [97, 97, 97, 98] [97, 98] 257
    { vocab := some (vocab0 ++ [(257, [97, 97])]),
      merges := some [((97, 97), 257)] }
    (RegexTokenizer.init (fun s => [s]))
    { split := fun s => [s], vocab := some (vocab0 ++ [(257, [97, 97])]),
      merges := some [((97, 97), 257)] }
    (by decide) (by decide) (by omega)
  exact ⟨h.1 rfl, h.2 rfl rfl rfl⟩

/-- C8: on the Chunked Tokenizer, after a successful training run, `encode`
returns exactly the concatenation, in chunk order, of the replay of the
stored Merge Table over each chunk's UTF-8 bytes — chunks are processed
independently, never jointly — and for every chunk the byte expansion of
its replayed token list is exactly that chunk's own bytes, so no token in
any encode output covers bytes originating from two different chunks. -/
theorem claim_C8_chunk_isolation (tr tk : RegexTokenizer) (C : List Nat)
    (V : Nat) (hchval : ∀ ch ∈ tr.split C, ValidText ch)
    (h : RegexTokenizer.train tr C V = .ok tk) :
    ∃ v m, tk.vocab = some v ∧ tk.merges = some m ∧ tk.split = tr.split ∧
      (∀ T, tk.encode T =
        .ok (concatAll ((tr.split T).map
          (fun chunk => replayMerges m (utf8Encode chunk))))) ∧
      (∀ T, ∀ ch ∈ tr.split T, ValidText ch →
        expandT v (replayMerges m (utf8Encode ch)) = utf8Encode ch) := by
  rcases Nat.lt_or_ge V 256 with hV | hV
  · obtain ⟨stf, hbpe, htk⟩ := regex_train_ok tr tk C V h
    have h0 : V - 256 = 0 := by omega
    rw [h0] at hbpe
    unfold regex_byte_pair_encode regexIter at hbpe
    cases hbpe
    subst htk
    refine ⟨vocab0, [], rfl, rfl, rfl, fun T => rfl, ?_⟩
    intro T ch hch hv
    exact expandT_eq_self vocab0 _ byteBase_vocab0 (utf8Encode_lt ch hv)
  · obtain ⟨stf, hbpe, htk, hinv⟩ := regex_train_inv tr tk C V hchval hV h
    obtain ⟨hbound, hbase, htinv, hmb, hent⟩ := hinv
    subst htk
    refine ⟨stf.vocab, stf.merges, rfl, rfl, rfl, fun T => rfl, ?_⟩
    intro T ch hch hv
    rw [expandT_replayMerges stf.vocab stf.merges _ htinv]
    exact expandT_eq_self stf.vocab _ hbase (utf8Encode_lt ch hv)

/-- Witness for C8: training on "ab cd" with a whitespace-aware two-chunk
splitter and `vocab_size = 257`. -/
theorem claim_C8_chunk_isolation_witness :
    ∃ v m,
      (RegexTokenizer.train
        (RegexTokenizer.init (fun _ => [[97, 98], [32, 99, 100]]))
        [97, 98, 32, 99, 100] 257).toOption.map
          (fun tk => (tk.vocab, tk.merges)) = some (some v, some m) ∧
      (∀ ch ∈ [[97, 98], [32, 99, 100]], ValidText ch →
        expandT v (replayMerges m (utf8Encode ch)) = utf8Encode ch) := by
  obtain ⟨v, m, hv, hm, hsp, henc, hiso⟩ := claim_C8_chunk_isolation
    (RegexTokenizer.init (fun _ => [[97, 98], [32, 99, 100]]))
    ((RegexTokenizer.train
        (RegexTokenizer.init (fun _ => [[97, 98], [32, 99, 100]]))
        [97, 98, 32, 99, 100] 257).toOption.getD
      (RegexTokenizer.init (fun _ => [[97, 98], [32, 99, 100]])))
    [97, 98, 32, 99, 100] 257
    (by intro ch hch; simp [RegexTokenizer.init] at hch
        rcases hch with h | h <;> rw [h] <;> decide)
    rfl
  refine ⟨v, m, ?_, ?_⟩
  · rw [show (RegexTokenizer.train
        (RegexTokenizer.init (fun _ => [[97, 98], [32, 99, 100]]))
        [97, 98, 32, 99, 100] 257).toOption =
      some ((RegexTokenizer.train
        (RegexTokenizer.init (fun _ => [[97, 98], [32, 99, 100]]))
        [97, 98, 32, 99, 100] 257).toOption.getD
          (RegexTokenizer.init (fun _ => [[97, 98], [32, 99, 100]])))
      from rfl]
    simp [hv, hm]
  · intro ch hch hvch
    exact hiso [97, 98, 32, 99, 100] ch (by simpa [RegexTokenizer.init] using hch) hvch
